import Mathlib

/-!
Verification of the crawl-orchestrator core of `fs-rgb-crawler`
(`src/fscrawler/controller/fsapi.py`): request partitioning under dual
limits, persons-result ingestion, relationship-type resolution, and the
per-hop control algorithm.

The graph-storage collaborators (`Graph`, `Individual`, `RelationshipType`,
the consistency validator) live outside `src/` and are modelled from the
spec where noted.  Python `dict`s are embedded as functions to `Option`,
Python `set`s as `Finset`, and fallible code (KeyError paths) returns
`Option`.
-/

namespace FsCrawler

/-! ## Constants from fsapi.py -/

def MAX_PERSONS : Nat := 200

def MAX_CONCURRENT_REQUESTS : Nat := 40

def GET_PERSONS : String := "/platform/tree/persons/.json?pids="

def RESOLVE_RELATIONSHIP : String := "/platform/tree/child-and-parents-relationships/"

/-! ## Request partitioning (`split_seq`, `partition_requests`)

`partition_requests` builds the list `final` whose elements are either
id *slices* (when `max_ids_per_request > 1`) or *bare ids* (otherwise),
then chunks `final` into groups with `split_seq`.  A `Cell` is one
element of a group: either a batch (Python list of ids) or a bare id. -/

inductive Cell where
  | batch : List String → Cell
  | single : String → Cell
deriving DecidableEq

/-- The ids carried by one group element: a batch carries its list, a
bare id carries itself. -/
def cellIds : Cell → List String
  | .batch l => l
  | .single i => [i]

/-- `split_seq(iterable, size)`: repeatedly slice off the next `size`
elements until the slice comes back empty (so `size = 0` yields nothing). -/
def split_seq (l : List α) (size : Nat) : List (List α) :=
  match h : l.take size with
  | [] => []
  | a :: rest => (a :: rest) :: split_seq (l.drop size) size
termination_by l.length
decreasing_by
  have hl : l ≠ [] := by
    intro he
    simp [he] at h
  have hs : size ≠ 0 := by
    intro he
    simp [he] at h
  have hpos : 0 < l.length := List.length_pos.mpr hl
  have hspos : 0 < size := Nat.pos_of_ne_zero hs
  simp only [List.length_drop]
  omega

/-- The slice comprehension
`[ids[i*size:(i+1)*size] for i in range((len(ids) + size - 1) // size)]`
from `partition_requests`. -/
def sliceChunks (ids : List String) (size : Nat) : List (List String) :=
  (List.range ((ids.length + size - 1) / size)).map
    (fun i => (ids.drop (i * size)).take size)

/-- The filtering comprehension
`[req_id for req_id in ids if req_id is not None and req_id not in exclusion]`. -/
def filterIds (ids : List (Option String)) (exclusion : String → Bool) : List String :=
  ids.filterMap (fun o => o.bind (fun i => if exclusion i then none else some i))

/-- `partition_requests(ids, exclusion, max_ids_per_request, max_concurrent_requests)`:
filter out nulls and excluded ids, slice into batches when
`max_ids_per_request > 1` (otherwise keep bare ids), then group with
`split_seq`.  The exclusion dict is embedded as its membership predicate. -/
def partition_requests (ids : List (Option String)) (exclusion : String → Bool)
    (max_ids_per_request : Nat) (max_concurrent_requests : Nat) : List (List Cell) :=
  split_seq
    (if 1 < max_ids_per_request then
      (sliceChunks (filterIds ids exclusion) max_ids_per_request).map Cell.batch
    else
      (filterIds ids exclusion).map Cell.single)
    max_concurrent_requests

/-- All ids of all groups, in order: concatenation of every batch of every
group. -/
def groupsIds (gs : List (List Cell)) : List String :=
  (gs.flatten.map cellIds).flatten

/-! ## Lemmas about `split_seq` and `sliceChunks` -/

theorem split_seq_eq_ite [DecidableEq α] (l : List α) (size : Nat) :
    split_seq l size =
      if l.take size = [] then [] else l.take size :: split_seq (l.drop size) size := by
  rw [split_seq.eq_def]
  split <;> simp_all

theorem split_seq_flatten (l : List α) (size : Nat) (hs : 1 ≤ size) :
    (split_seq l size).flatten = l := by
  rw [split_seq.eq_def]
  split
  next heq =>
    have : l = [] := by
      rcases (List.take_eq_nil_iff).mp heq with h | h
      · omega
      · exact h
    simp [this]
  next a rest heq =>
    have hl : l ≠ [] := by
      intro he
      simp [he] at heq
    have hpos : 0 < l.length := List.length_pos.mpr hl
    have ih := split_seq_flatten (l.drop size) size hs
    simp only [List.flatten_cons, ← heq, ih]
    exact List.take_append_drop size l
termination_by l.length
decreasing_by
  simp only [List.length_drop]
  omega

theorem split_seq_length_le (l : List α) (size : Nat) :
    ∀ g ∈ split_seq l size, g.length ≤ size := by
  rw [split_seq.eq_def]
  split
  next heq => simp
  next a rest heq =>
    intro g hg
    rcases List.mem_cons.mp hg with h | h
    · subst h
      rw [← heq]
      exact List.length_take_le size l
    · have hl : l ≠ [] := by
        intro he
        simp [he] at heq
      have hs : size ≠ 0 := by
        intro he
        simp [he] at heq
      have hpos : 0 < l.length := List.length_pos.mpr hl
      exact split_seq_length_le (l.drop size) size g h
termination_by l.length
decreasing_by
  simp only [List.length_drop]
  omega

theorem split_seq_mem_mem (l : List α) (size : Nat) :
    ∀ g ∈ split_seq l size, ∀ x ∈ g, x ∈ l := by
  rw [split_seq.eq_def]
  split
  next heq => simp
  next a rest heq =>
    intro g hg x hx
    rcases List.mem_cons.mp hg with h | h
    · subst h
      rw [← heq] at hx
      exact List.mem_of_mem_take hx
    · have hl : l ≠ [] := by
        intro he
        simp [he] at heq
      have hs : size ≠ 0 := by
        intro he
        simp [he] at heq
      have hpos : 0 < l.length := List.length_pos.mpr hl
      exact List.mem_of_mem_drop (split_seq_mem_mem (l.drop size) size g h x hx)
termination_by l.length
decreasing_by
  simp only [List.length_drop]
  omega

theorem sliceChunks_nil (size : Nat) : sliceChunks [] size = [] := by
  unfold sliceChunks
  rcases Nat.eq_zero_or_pos size with h | h
  · simp [h]
  · have hz : (size - 1) / size = 0 := Nat.div_eq_of_lt (by omega)
    simp [hz]

theorem sliceChunks_cons (l : List String) (b : Nat) (hb : 1 ≤ b) (hl : l ≠ []) :
    sliceChunks l b = l.take b :: sliceChunks (l.drop b) b := by
  have hn : 0 < l.length := List.length_pos.mpr hl
  have key : (l.length + b - 1) / b = ((l.drop b).length + b - 1) / b + 1 := by
    rw [List.length_drop]
    rcases le_or_lt b l.length with h | h
    · have e1 : l.length + b - 1 = (l.length - 1) + b := by omega
      have e2 : l.length - b + b - 1 = l.length - 1 := by omega
      rw [e1, e2, Nat.add_div_right _ (by omega)]
    · have e1 : l.length - b = 0 := by omega
      have e2 : (0 + b - 1) / b = 0 := Nat.div_eq_of_lt (by omega)
      rw [e1, e2]
      have hge : 1 * b ≤ l.length + b - 1 := by omega
      rw [Nat.div_eq_of_lt_le hge (by omega)]
  unfold sliceChunks
  rw [key, List.range_succ_eq_map, List.map_cons, List.map_map]
  congr 1
  · simp
  · apply List.map_congr_left
    intro i _
    simp only [Function.comp_apply, List.drop_drop]
    congr 2
    rw [Nat.succ_mul, Nat.add_comm]

theorem sliceChunks_flatten (l : List String) (b : Nat) (hb : 1 ≤ b) :
    (sliceChunks l b).flatten = l := by
  rcases List.eq_nil_or_concat l with h | _
  · subst h
    simp [sliceChunks_nil]
  · have hl : l ≠ [] := by
      rintro rfl
      simp_all
    rw [sliceChunks_cons l b hb hl]
    have hpos : 0 < l.length := List.length_pos.mpr hl
    have ih := sliceChunks_flatten (l.drop b) b hb
    simp only [List.flatten_cons, ih]
    exact List.take_append_drop b l
termination_by l.length
decreasing_by
  simp only [List.length_drop]
  omega

theorem sliceChunks_length_le (l : List String) (b : Nat) :
    ∀ ch ∈ sliceChunks l b, ch.length ≤ b := by
  intro ch hch
  unfold sliceChunks at hch
  rcases List.mem_map.mp hch with ⟨i, _, rfl⟩
  exact List.length_take_le b _

theorem flatten_map_singletonList (l : List String) :
    (l.map (fun i => [i])).flatten = l := by
  induction l with
  | nil => rfl
  | cons a rest ih => simp [ih]

theorem split_seq_nil (size : Nat) : split_seq ([] : List α) size = [] := by
  rw [split_seq.eq_def]
  split
  · rfl
  · next heq => simp at heq

/-! ## Claims about `partition_requests` (C1, C2, C8) -/

/-- C1: for every id list, exclusion set, batch size, and positive
concurrency width, the concatenation of all batches of all groups produced
by `partition_requests` equals the input with nulls and excluded ids
removed, in order, nothing duplicated and nothing added; empty input
yields an empty sequence of groups. -/
theorem partition_requests_is_filtering_projection
    (ids : List (Option String)) (exclusion : String → Bool) (b c : Nat)
    (hc : 1 ≤ c) :
    groupsIds (partition_requests ids exclusion b c) = filterIds ids exclusion ∧
      partition_requests [] exclusion b c = [] := by
  constructor
  · unfold partition_requests groupsIds
    rw [split_seq_flatten _ _ hc]
    by_cases hb : 1 < b
    · rw [if_pos hb, List.map_map]
      have hco : cellIds ∘ Cell.batch = id := rfl
      rw [hco, List.map_id, sliceChunks_flatten _ _ (by omega)]
    · rw [if_neg hb, List.map_map]
      have hco : cellIds ∘ Cell.single = fun i => [i] := rfl
      rw [hco, flatten_map_singletonList]
  · unfold partition_requests
    have hf : filterIds [] exclusion = [] := rfl
    by_cases hb : 1 < b
    · rw [if_pos hb, hf, sliceChunks_nil]
      exact split_seq_nil c
    · rw [if_neg hb, hf]
      exact split_seq_nil c

/-- Witness for C1 at the spec's own example: ids `[A, B, C]` (with a null
and an excluded id added), batch size 2, width 40. -/
theorem partition_requests_is_filtering_projection_witness :
    1 ≤ 40 ∧
      (groupsIds (partition_requests [some "A", none, some "B", some "X", some "C"]
          (fun i => i == "X") 2 40)
          = filterIds [some "A", none, some "B", some "X", some "C"] (fun i => i == "X") ∧
        partition_requests [] (fun i => i == "X") 2 40 = []) :=
  ⟨by decide,
    partition_requests_is_filtering_projection
      [some "A", none, some "B", some "X", some "C"] (fun i => i == "X") 2 40 (by decide)⟩

/-- C8: with a positive batch-size limit `b`, every group produced by
`partition_requests` has at most `c` cells and every cell carries at most
`b` ids. -/
theorem partition_requests_size_bounds
    (ids : List (Option String)) (exclusion : String → Bool) (b c : Nat)
    (hb : 1 ≤ b) :
    ∀ grp ∈ partition_requests ids exclusion b c,
      grp.length ≤ c ∧ ∀ cl ∈ grp, (cellIds cl).length ≤ b := by
  intro grp hgrp
  unfold partition_requests at hgrp
  refine ⟨split_seq_length_le _ _ grp hgrp, ?_⟩
  intro cl hcl
  have hmem := split_seq_mem_mem _ _ grp hgrp cl hcl
  by_cases h1 : 1 < b
  · rw [if_pos h1] at hmem
    rcases List.mem_map.mp hmem with ⟨ch, hch, rfl⟩
    exact sliceChunks_length_le _ _ ch hch
  · rw [if_neg h1] at hmem
    rcases List.mem_map.mp hmem with ⟨i, _, rfl⟩
    simpa [cellIds] using hb

/-- Witness for C8 at batch size 2, width 1, three filtered ids. -/
theorem partition_requests_size_bounds_witness :
    1 ≤ 2 ∧
      ∀ grp ∈ partition_requests [some "A", some "B", some "C"] (fun _ => false) 2 1,
        grp.length ≤ 1 ∧ ∀ cl ∈ grp, (cellIds cl).length ≤ 2 :=
  ⟨by decide,
    partition_requests_size_bounds [some "A", some "B", some "C"] (fun _ => false) 2 1
      (by decide)⟩

/-- C2 counterexample: with batch size 1 the group elements produced by
`partition_requests` are the bare filtered ids themselves, not
single-element lists; at input `[A]` the sole group element is the bare id
`A`, which is not the singleton batch `[A]`. -/
theorem partition_requests_degenerate_counterexample :
    partition_requests [some "A"] (fun _ => false) 1 40 = [[Cell.single "A"]] ∧
      Cell.single "A" ≠ Cell.batch ["A"] := by
  constructor
  · simp [partition_requests, filterIds, split_seq_eq_ite]
  · simp

/-- C2 amended: when the batch-size limit is ≤ 1 (and the width is
positive), the group elements are the bare filtered ids, one per filtered
id, in the filtered input's order. -/
theorem partition_requests_degenerate_bare_ids
    (ids : List (Option String)) (exclusion : String → Bool) (b c : Nat)
    (hb : b ≤ 1) (hc : 1 ≤ c) :
    (partition_requests ids exclusion b c).flatten
      = (filterIds ids exclusion).map Cell.single := by
  unfold partition_requests
  rw [if_neg (by omega), split_seq_flatten _ _ hc]

/-- Witness for the amended C2 at two ids, batch size 1, width 40. -/
theorem partition_requests_degenerate_bare_ids_witness :
    (1 ≤ 1 ∧ 1 ≤ 40) ∧
      (partition_requests [some "A", some "B"] (fun _ => false) 1 40).flatten
        = (filterIds [some "A", some "B"] (fun _ => false)).map Cell.single :=
  ⟨by decide,
    partition_requests_degenerate_bare_ids [some "A", some "B"] (fun _ => false) 1 40
      (by decide) (by decide)⟩

/-! ## Data model

`Graph`, `Individual`, `RelationshipType` and the consistency validator
live in `fscrawler.model`, outside the orchestrator source; their
operations used by `fsapi.py` are modelled from the spec below.  JSON
response documents are embedded structurally: an absent key is `none`. -/

/-- Modelled from the spec: `RelationshipType` (missing
`fscrawler/model/relationship_types.py`) is a closed tag set resolved from
URI-typed facts; it is embedded as the tag string, with equality on
values (the enum derives from `str`, so comparison against the derived
path string is by value). -/
abbrev RelationshipType := String

/-- Modelled from the spec: `RelationshipType.UNSPECIFIED_PARENT`, the
pending "parent-child (unspecified)" tag an edge carries until resolved. -/
def UNSPECIFIED_PARENT : RelationshipType := "UnspecifiedParentType"

/-- Modelled from the spec: an `Individual` (missing
`fscrawler/model/individual.py`) holds its id, the hop depth tagged at
creation, and the opaque raw person payload recorded by `add_data`. -/
structure Individual where
  pid : String
  hop : Int
  payload : String
deriving DecidableEq

/-- One entry of a `parent1Facts`/`parent2Facts` list: `{type: uri}`. -/
structure Fact where
  ftype : String
deriving DecidableEq

/-- One entry of a persons-list response's `persons` array: its `id` plus
the rest of the record, kept opaque. -/
structure PersonEntry where
  pid : String
  payload : String
deriving DecidableEq

/-- One entry of `childAndParentsRelationships`.  The `child`, `parent1`
and `parent2` slots carry their `resourceId` when the slot is present. -/
structure RelRecord where
  rid : String
  child : Option String
  parent1 : Option String
  parent2 : Option String
  parent1Facts : Option (List Fact)
  parent2Facts : Option (List Fact)
deriving DecidableEq

/-- A parsed JSON response document; each section is `none` when the key
is absent.  A whole-document `none` at the call sites models a falsy
(`None`/empty) body. -/
structure ResponseDoc where
  persons : Option (List PersonEntry)
  childAndParentsRelationships : Option (List RelRecord)
deriving DecidableEq

/-- Modelled from the spec: the externally owned graph (missing
`fscrawler/model/graph.py`): the individuals dict, the frontier set, the
relationship map keyed by (child id, parent id), and the consistency
validator's set of reported (child, parent, relationship id) triples. -/
@[ext]
structure Graph where
  individuals : String → Option Individual
  frontier : Finset String
  relationships : String × String → Option RelationshipType
  validator : Finset (String × String × String)

/-- Modelled from the spec: `Graph.add_to_frontier` inserts a discovered
id into the frontier set. -/
def addToFrontier (g : Graph) (i : String) : Graph :=
  { g with frontier := insert i g.frontier }

/-- Modelled from the spec: `Graph.add_parent_child_relationship`
registers a pending edge on first discovery — created with the
unspecified type when absent, left alone when already present. -/
def addParentChildRelationship (g : Graph) (c p : String) : Graph :=
  match g.relationships (c, p) with
  | some _ => g
  | none =>
      { g with
        relationships := fun kp =>
          if kp = (c, p) then some UNSPECIFIED_PARENT else g.relationships kp }

/-- Modelled from the spec: `cp_validator.add` reports the
(child, parent, relationship id) triple to the consistency validator. -/
def validatorAdd (g : Graph) (c p rid : String) : Graph :=
  { g with validator := insert (c, p, rid) g.validator }

/-! ## Relationship-type derivation (`get_relationship_type`)

`urlparse(fact['type']).path.strip('/')`: the path component of the
fact's URI with surrounding slashes stripped.  `urlPath` models
`urllib.parse.urlparse(...).path` for the hierarchical http(s) URIs the
API uses (scheme `://` authority / path ? query # fragment). -/

/-- Everything after the first occurrence of `c`, or `none` when `c`
does not occur. -/
def afterChar (c : Char) : List Char → Option (List Char)
  | [] => none
  | x :: rest => if x = c then some rest else afterChar c rest

/-- The longest strict prefix not containing `c`. -/
def takeUntilChar (c : Char) : List Char → List Char
  | [] => []
  | x :: rest => if x = c then [] else x :: takeUntilChar c rest

/-- The suffix starting at the first slash ([] when there is none):
drops the authority component. -/
def fromSlash : List Char → List Char
  | [] => []
  | x :: rest => if x = '/' then x :: rest else fromSlash rest

/-- The path component of a URI of the shape
`scheme://authority/path?query#fragment` (or, with no `scheme://`, the
input up to any query/fragment), as `urlparse` extracts it. -/
def urlPathChars (l : List Char) : List Char :=
  match afterChar ':' l with
  | some ('/' :: '/' :: hostAndPath) =>
      takeUntilChar '#' (takeUntilChar '?' (fromSlash hostAndPath))
  | _ => takeUntilChar '#' (takeUntilChar '?' l)

/-- Python `str.strip(c)`: remove every leading and trailing `c`. -/
def stripChar (c : Char) (l : List Char) : List Char :=
  ((l.dropWhile (· = c)).reverse.dropWhile (· = c)).reverse

/-- The type a single fact derives:
`urlparse(fact['type']).path.strip('/')`, converted to a
`RelationshipType` value. -/
def deriveFactType (uri : String) : RelationshipType :=
  String.mk (stripChar '/' (urlPathChars uri.toList))

/-- The fact-list scan of `get_relationship_type`: start from the
default, let every fact's derived type replace the current one, and count
a conflict diagnostic whenever the replaced value was neither the default
nor equal to the incoming type. -/
def factScan (dflt : RelationshipType) :
    List Fact → RelationshipType → Nat → RelationshipType × Nat
  | [], t, n => (t, n)
  | f :: rest, t, n =>
      factScan dflt rest (deriveFactType f.ftype)
        (if t ≠ dflt ∧ t ≠ deriveFactType f.ftype then n + 1 else n)

/-- `get_relationship_type(rel, field, default)` over the (possibly
absent) fact list `rel[field]`, returning the resolved type together with
the number of conflict diagnostics logged during the scan. -/
def get_relationship_type (facts : Option (List Fact)) (dflt : RelationshipType) :
    RelationshipType × Nat :=
  match facts with
  | none => (dflt, 0)
  | some fs => factScan dflt fs dflt 0

/-! ## Claim C5: last-fact-wins with one logged conflict -/

/-- C5 counterexample: two *distinct* URIs that derive the *same*
non-default type.  The resolved type is still the one derived from the
second URI, but no conflict diagnostic is emitted, refuting "the conflict
diagnostic is emitted exactly once" for this input allowed by the claim. -/
theorem get_relationship_type_conflict_counterexample :
    ("http://gedcomx.org/BiologicalParent" : String)
        ≠ "https://gedcomx.org/BiologicalParent" ∧
      deriveFactType "http://gedcomx.org/BiologicalParent" ≠ UNSPECIFIED_PARENT ∧
      deriveFactType "https://gedcomx.org/BiologicalParent" ≠ UNSPECIFIED_PARENT ∧
      get_relationship_type
          (some [⟨"http://gedcomx.org/BiologicalParent"⟩,
            ⟨"https://gedcomx.org/BiologicalParent"⟩]) UNSPECIFIED_PARENT
        = (deriveFactType "https://gedcomx.org/BiologicalParent", 0) := by
  refine ⟨by decide, by decide, by decide, ?_⟩
  rfl

/-- C5 amended: for a two-fact list whose facts derive *distinct*
non-default types, the resolved type is the one derived from the second
fact's URI (last wins) and the conflict diagnostic is emitted exactly
once. -/
theorem get_relationship_type_last_wins
    (u1 u2 : String) (dflt : RelationshipType)
    (h1 : deriveFactType u1 ≠ dflt)
    (h2 : deriveFactType u2 ≠ dflt)
    (h12 : deriveFactType u1 ≠ deriveFactType u2) :
    get_relationship_type (some [⟨u1⟩, ⟨u2⟩]) dflt = (deriveFactType u2, 1) := by
  show factScan dflt [⟨u1⟩, ⟨u2⟩] dflt 0 = _
  simp only [factScan]
  rw [if_pos ⟨h1, h12⟩, if_neg (by simp)]

/-- Witness for the amended C5 at two concrete gedcomx fact URIs. -/
theorem get_relationship_type_last_wins_witness :
    (deriveFactType "http://gedcomx.org/BiologicalParent" ≠ UNSPECIFIED_PARENT ∧
        deriveFactType "http://gedcomx.org/AdoptiveParent" ≠ UNSPECIFIED_PARENT ∧
        deriveFactType "http://gedcomx.org/BiologicalParent"
          ≠ deriveFactType "http://gedcomx.org/AdoptiveParent") ∧
      get_relationship_type
          (some [⟨"http://gedcomx.org/BiologicalParent"⟩,
            ⟨"http://gedcomx.org/AdoptiveParent"⟩]) UNSPECIFIED_PARENT
        = (deriveFactType "http://gedcomx.org/AdoptiveParent", 1) :=
  ⟨⟨by decide, by decide, by decide⟩,
    get_relationship_type_last_wins "http://gedcomx.org/BiologicalParent"
      "http://gedcomx.org/AdoptiveParent" UNSPECIFIED_PARENT
      (by decide) (by decide) (by decide)⟩

/-! ## Persons-result ingestion (`process_persons_result`) -/

/-- One `persons` entry:
`graph.individuals[p["id"]] = Individual(p["id"]); .hop = hop_count; .add_data(p)`
— an unconditional dict write of a freshly built record. -/
def ingestPerson (hop : Int) (g : Graph) (p : PersonEntry) : Graph :=
  { g with
    individuals := fun k =>
      if k = p.pid then some ⟨p.pid, hop, p.payload⟩ else g.individuals k }

/-- `_process_parent_child(key, data, graph, child, rel_id)`: when the
parent slot is present, add the parent to the frontier, register the
pending edge, and report the triple to the validator. -/
def process_parent_child (slot : Option String) (g : Graph) (child rid : String) :
    Graph :=
  match slot with
  | none => g
  | some parent =>
      validatorAdd (addParentChildRelationship (addToFrontier g parent) child parent)
        child parent rid

/-- One `childAndParentsRelationships` entry of a persons response;
`relationship["child"]` is read unguarded, so an absent child slot is a
KeyError (`none`). -/
def ingestRelRecord (g : Graph) (r : RelRecord) : Option Graph :=
  match r.child with
  | none => none
  | some c =>
      some (process_parent_child r.parent2
        (process_parent_child r.parent1 (addToFrontier g c) c r.rid) c r.rid)

/-- `process_persons_result(data, graph, hop_count)`: a falsy document is
a no-op; `data["persons"]` is read unguarded (KeyError when the key is
absent from a truthy document); the relationship section is optional. -/
def process_persons_result (data : Option ResponseDoc) (g : Graph) (hop : Int) :
    Option Graph :=
  match data with
  | none => some g
  | some d =>
      match d.persons with
      | none => none
      | some ps =>
          match d.childAndParentsRelationships with
          | none => some (ps.foldl (ingestPerson hop) g)
          | some rels => rels.foldlM ingestRelRecord (ps.foldl (ingestPerson hop) g)

/-! ## Relationship resolution (`process_relationship_result`) -/

/-- Python truthiness of an optional id: `None` and the empty string are
falsy. -/
def pyTruthy : Option String → Bool
  | none => false
  | some s => !(s == "")

/-- `_update_relationship_info(rel, child, parent, fact_key, graph)`:
when both ids are truthy, write the resolved type at (child, parent)
unconditionally. -/
def update_relationship_info (child parent : Option String)
    (facts : Option (List Fact)) (g : Graph) : Graph :=
  if pyTruthy child && pyTruthy parent then
    { g with
      relationships := fun kp =>
        if kp = (child.getD "", parent.getD "") then
          some (get_relationship_type facts UNSPECIFIED_PARENT).1
        else g.relationships kp }
  else g

/-- `process_relationship_result(data, graph)`: both the falsy-document
and the missing-key cases are guarded here; each record resolves the
parent1 slot and then the parent2 slot. -/
def process_relationship_result (data : Option ResponseDoc) (g : Graph) : Graph :=
  match data with
  | none => g
  | some d =>
      match d.childAndParentsRelationships with
      | none => g
      | some rels =>
          rels.foldl
            (fun g rel =>
              update_relationship_info rel.child rel.parent2 rel.parent2Facts
                (update_relationship_info rel.child rel.parent1 rel.parent1Facts g))
            g

/-- The graph with no individuals, an empty frontier, no relationships
and no validator reports; the base state for concrete runs. -/
def emptyGraph : Graph where
  individuals := fun _ => none
  frontier := ∅
  relationships := fun _ => none
  validator := ∅

/-- A graph already holding one individual `A` discovered at hop 0. -/
def graphWithA : Graph where
  individuals := fun k => if k = "A" then some ⟨"A", 0, "seed"⟩ else none
  frontier := ∅
  relationships := fun _ => none
  validator := ∅

/-! ## Claim C6: absent sections -/

/-- C6 counterexample: a truthy persons-list response that *lacks* the
`persons` key (here one carrying only an empty relationship section)
makes `process_persons_result` raise a KeyError (modelled as `none`)
instead of returning normally. -/
theorem process_persons_result_missing_persons_counterexample :
    process_persons_result (some ⟨none, some []⟩) emptyGraph 0 = none := rfl

/-- C6 amended: a falsy (null/empty) response ingests nothing and
returns normally, and a response whose *relationship* section is absent
ingests only its persons and returns normally; but a truthy response
lacking the `persons` key raises a KeyError. -/
theorem process_persons_result_absent_sections
    (g : Graph) (hop : Int) (ps : List PersonEntry) :
    process_persons_result none g hop = some g ∧
      process_persons_result (some ⟨some ps, none⟩) g hop
        = some (ps.foldl (ingestPerson hop) g) :=
  ⟨rfl, rfl⟩

/-! ## Claim C10: resolution writes the edge unconditionally -/

/-- C10: for a resolution record with truthy child and parent1 ids (and
no parent2), `process_relationship_result` stores the resolved type at
(child, parent1) for *every* prior graph — in particular the edge is
created when none existed. -/
theorem process_relationship_result_unconditional_write
    (g : Graph) (r : RelRecord) (c p : String) (ps : Option (List PersonEntry))
    (hc : r.child = some c) (hp : r.parent1 = some p)
    (hc0 : c ≠ "") (hp0 : p ≠ "") (h2 : r.parent2 = none) :
    (process_relationship_result (some ⟨ps, some [r]⟩) g).relationships (c, p)
      = some (get_relationship_type r.parent1Facts UNSPECIFIED_PARENT).1 := by
  simp only [process_relationship_result, List.foldl_cons, List.foldl_nil, hc, hp, h2]
  simp [update_relationship_info, pyTruthy, hc0, hp0]

/-- Witness for C10 on the empty graph (no pre-existing edge). -/
theorem process_relationship_result_unconditional_write_witness :
    (emptyGraph.relationships ("C", "P") = none) ∧
      (process_relationship_result
          (some ⟨none,
            some [⟨"R1", some "C", some "P", none,
              some [⟨"http://gedcomx.org/BiologicalParent"⟩], none⟩]⟩)
          emptyGraph).relationships ("C", "P")
        = some (get_relationship_type
            (some [⟨"http://gedcomx.org/BiologicalParent"⟩]) UNSPECIFIED_PARENT).1 :=
  ⟨rfl,
    process_relationship_result_unconditional_write emptyGraph
      ⟨"R1", some "C", some "P", none,
        some [⟨"http://gedcomx.org/BiologicalParent"⟩], none⟩
      "C" "P" none rfl rfl (by decide) (by decide) rfl⟩

/-! ## Claim C9: individuals are overwritten, not create-once -/

/-- C9 counterexample: an id already present in the individuals map is
*replaced* by a fresh record (new hop depth, new payload) when a later
response lists it again — the map write is unconditional. -/
theorem process_persons_result_overwrite_counterexample :
    graphWithA.individuals "A" = some ⟨"A", 0, "seed"⟩ ∧
      (process_persons_result (some ⟨some [⟨"A", "fresh"⟩], none⟩) graphWithA 1).map
          (fun g => g.individuals "A")
        = some (some ⟨"A", 1, "fresh"⟩) ∧
      (⟨"A", 1, "fresh"⟩ : Individual) ≠ ⟨"A", 0, "seed"⟩ :=
  ⟨rfl, rfl, by decide⟩

/-! ## A total characterization of `process_persons_result`

`process_persons_result` fails exactly when the document is truthy
without a `persons` key, or some relationship entry lacks its child
slot; in every other case it applies the pure transformer `applyDoc`.
The component lemmas below describe `applyDoc`'s effect field by field. -/

/-- The persons entries of a document ([] when falsy or absent). -/
def personsOf : Option ResponseDoc → List PersonEntry
  | none => []
  | some d => d.persons.getD []

/-- The relationship entries of a document ([] when falsy or absent). -/
def relsOf : Option ResponseDoc → List RelRecord
  | none => []
  | some d => d.childAndParentsRelationships.getD []

/-- Whether ingesting the document succeeds (no KeyError): falsy, or
with a `persons` key and a child slot on every relationship entry. -/
def docOK : Option ResponseDoc → Bool
  | none => true
  | some d =>
      d.persons.isSome
        && (d.childAndParentsRelationships.getD []).all (fun r => r.child.isSome)

def personsApply (hop : Int) (ps : List PersonEntry) (g : Graph) : Graph :=
  ps.foldl (ingestPerson hop) g

/-- The total effect of one relationship entry (skipping an absent child
instead of failing). -/
def relRecordApply (g : Graph) (r : RelRecord) : Graph :=
  match r.child with
  | none => g
  | some c =>
      process_parent_child r.parent2
        (process_parent_child r.parent1 (addToFrontier g c) c r.rid) c r.rid

def relsApply (rels : List RelRecord) (g : Graph) : Graph :=
  rels.foldl relRecordApply g

/-- The pure graph transformer a successful ingestion applies. -/
def applyDoc (d : Option ResponseDoc) (hop : Int) (g : Graph) : Graph :=
  relsApply (relsOf d) (personsApply hop (personsOf d) g)

theorem foldlM_ingestRelRecord_eq (rels : List RelRecord) (g : Graph) :
    rels.foldlM ingestRelRecord g
      = if rels.all (fun r => r.child.isSome) then some (relsApply rels g) else none := by
  induction rels generalizing g with
  | nil => rfl
  | cons r rest ih =>
      cases hc : r.child with
      | none =>
          simp [List.foldlM_cons, ingestRelRecord, hc, List.all_cons]
      | some c =>
          simp [List.foldlM_cons, ingestRelRecord, hc, List.all_cons, ih,
            relsApply, relRecordApply]

theorem process_persons_result_eq (d : Option ResponseDoc) (g : Graph) (hop : Int) :
    process_persons_result d g hop
      = if docOK d then some (applyDoc d hop g) else none := by
  cases d with
  | none => rfl
  | some dd =>
      cases hp : dd.persons with
      | none => simp [process_persons_result, docOK, hp]
      | some ps =>
          cases hr : dd.childAndParentsRelationships with
          | none =>
              simp [process_persons_result, docOK, hp, hr, applyDoc, personsOf,
                relsOf, relsApply, personsApply]
          | some rels =>
              simp only [process_persons_result, hp, hr, foldlM_ingestRelRecord_eq,
                docOK, applyDoc, personsOf, relsOf, personsApply, Option.getD_some,
                Option.isSome_some, Bool.true_and]

/-! ## Field-level effects of the graph operations -/

theorem addToFrontier_individuals (g : Graph) (i : String) :
    (addToFrontier g i).individuals = g.individuals := rfl

theorem addToFrontier_relationships (g : Graph) (i : String) :
    (addToFrontier g i).relationships = g.relationships := rfl

theorem addToFrontier_validator (g : Graph) (i : String) :
    (addToFrontier g i).validator = g.validator := rfl

theorem addToFrontier_frontier (g : Graph) (i : String) :
    (addToFrontier g i).frontier = {i} ∪ g.frontier := by
  rw [← Finset.insert_eq]
  rfl

theorem addParentChildRelationship_individuals (g : Graph) (c p : String) :
    (addParentChildRelationship g c p).individuals = g.individuals := by
  unfold addParentChildRelationship
  split <;> rfl

theorem addParentChildRelationship_frontier (g : Graph) (c p : String) :
    (addParentChildRelationship g c p).frontier = g.frontier := by
  unfold addParentChildRelationship
  split <;> rfl

theorem addParentChildRelationship_validator (g : Graph) (c p : String) :
    (addParentChildRelationship g c p).validator = g.validator := by
  unfold addParentChildRelationship
  split <;> rfl

theorem addParentChildRelationship_relationships (g : Graph) (c p : String)
    (kp : String × String) :
    (addParentChildRelationship g c p).relationships kp
      = if kp = (c, p) ∧ g.relationships kp = none then some UNSPECIFIED_PARENT
        else g.relationships kp := by
  unfold addParentChildRelationship
  cases hr : g.relationships (c, p) with
  | some t =>
      by_cases hkp : kp = (c, p)
      · subst hkp
        simp [hr]
      · simp [hkp]
  | none =>
      by_cases hkp : kp = (c, p)
      · subst hkp
        simp [hr]
      · simp [hkp]

theorem validatorAdd_individuals (g : Graph) (c p rid : String) :
    (validatorAdd g c p rid).individuals = g.individuals := rfl

theorem validatorAdd_frontier (g : Graph) (c p rid : String) :
    (validatorAdd g c p rid).frontier = g.frontier := rfl

theorem validatorAdd_relationships (g : Graph) (c p rid : String) :
    (validatorAdd g c p rid).relationships = g.relationships := rfl

theorem validatorAdd_validator (g : Graph) (c p rid : String) :
    (validatorAdd g c p rid).validator = {(c, p, rid)} ∪ g.validator := by
  rw [← Finset.insert_eq]
  rfl

/-- The frontier contribution of one parent slot. -/
def slotFinset : Option String → Finset String
  | none => ∅
  | some p => {p}

/-- The validator contribution of one parent slot. -/
def slotValidator (slot : Option String) (c rid : String) :
    Finset (String × String × String) :=
  match slot with
  | none => ∅
  | some p => {(c, p, rid)}

/-- Whether one parent slot targets the edge key `kp`. -/
def slotKey (slot : Option String) (c : String) (kp : String × String) : Bool :=
  match slot with
  | none => false
  | some p => kp = (c, p)

theorem process_parent_child_individuals (slot : Option String) (g : Graph)
    (c rid : String) :
    (process_parent_child slot g c rid).individuals = g.individuals := by
  cases slot with
  | none => rfl
  | some p =>
      show (validatorAdd _ _ _ _).individuals = _
      rw [validatorAdd_individuals, addParentChildRelationship_individuals,
        addToFrontier_individuals]

theorem process_parent_child_frontier (slot : Option String) (g : Graph)
    (c rid : String) :
    (process_parent_child slot g c rid).frontier = slotFinset slot ∪ g.frontier := by
  cases slot with
  | none => simp [process_parent_child, slotFinset]
  | some p =>
      show (validatorAdd _ _ _ _).frontier = _
      rw [validatorAdd_frontier, addParentChildRelationship_frontier,
        addToFrontier_frontier]
      rfl

theorem process_parent_child_validator (slot : Option String) (g : Graph)
    (c rid : String) :
    (process_parent_child slot g c rid).validator
      = slotValidator slot c rid ∪ g.validator := by
  cases slot with
  | none => simp [process_parent_child, slotValidator]
  | some p =>
      show (validatorAdd _ _ _ _).validator = _
      rw [validatorAdd_validator, addParentChildRelationship_validator,
        addToFrontier_validator]
      rfl

theorem process_parent_child_relationships (slot : Option String) (g : Graph)
    (c rid : String) (kp : String × String) :
    (process_parent_child slot g c rid).relationships kp
      = if slotKey slot c kp ∧ g.relationships kp = none then some UNSPECIFIED_PARENT
        else g.relationships kp := by
  cases slot with
  | none => simp [process_parent_child, slotKey]
  | some p =>
      show (validatorAdd _ _ _ _).relationships kp = _
      rw [validatorAdd_relationships, addParentChildRelationship_relationships]
      rw [show (addToFrontier g p).relationships = g.relationships from rfl]
      simp [slotKey]

/-! ## Fold-level effects of ingesting a record list -/

/-- The frontier contribution of one relationship entry. -/
def recFrontier (r : RelRecord) : Finset String :=
  match r.child with
  | none => ∅
  | some c => {c} ∪ (slotFinset r.parent1 ∪ slotFinset r.parent2)

/-- The validator contribution of one relationship entry. -/
def recValidator (r : RelRecord) : Finset (String × String × String) :=
  match r.child with
  | none => ∅
  | some c => slotValidator r.parent1 c r.rid ∪ slotValidator r.parent2 c r.rid

/-- Whether one relationship entry targets the edge key `kp`. -/
def recHasKey (r : RelRecord) (kp : String × String) : Bool :=
  match r.child with
  | none => false
  | some c => slotKey r.parent1 c kp || slotKey r.parent2 c kp

def relsFrontier : List RelRecord → Finset String
  | [] => ∅
  | r :: rest => recFrontier r ∪ relsFrontier rest

def relsValidator : List RelRecord → Finset (String × String × String)
  | [] => ∅
  | r :: rest => recValidator r ∪ relsValidator rest

def relsHaveKey (rels : List RelRecord) (kp : String × String) : Bool :=
  rels.any (fun r => recHasKey r kp)

theorem relRecordApply_individuals (g : Graph) (r : RelRecord) :
    (relRecordApply g r).individuals = g.individuals := by
  unfold relRecordApply
  cases r.child with
  | none => rfl
  | some c =>
      rw [process_parent_child_individuals, process_parent_child_individuals,
        addToFrontier_individuals]

theorem relRecordApply_frontier (g : Graph) (r : RelRecord) :
    (relRecordApply g r).frontier = g.frontier ∪ recFrontier r := by
  unfold relRecordApply recFrontier
  cases r.child with
  | none => simp
  | some c =>
      rw [process_parent_child_frontier, process_parent_child_frontier,
        addToFrontier_frontier]
      ext x
      simp
      tauto

theorem relRecordApply_validator (g : Graph) (r : RelRecord) :
    (relRecordApply g r).validator = g.validator ∪ recValidator r := by
  unfold relRecordApply recValidator
  cases r.child with
  | none => simp
  | some c =>
      rw [process_parent_child_validator, process_parent_child_validator,
        addToFrontier_validator]
      ext x
      simp
      tauto

theorem relRecordApply_relationships (g : Graph) (r : RelRecord)
    (kp : String × String) :
    (relRecordApply g r).relationships kp
      = if recHasKey r kp ∧ g.relationships kp = none then some UNSPECIFIED_PARENT
        else g.relationships kp := by
  unfold relRecordApply recHasKey
  cases r.child with
  | none => simp
  | some c =>
      rw [process_parent_child_relationships, process_parent_child_relationships]
      rw [show (addToFrontier g c).relationships = g.relationships from rfl]
      by_cases h1 : slotKey r.parent1 c kp = true <;>
        by_cases h2 : slotKey r.parent2 c kp = true <;>
        by_cases hn : g.relationships kp = none <;>
        simp [h1, h2, hn]

theorem relsApply_individuals (rels : List RelRecord) (g : Graph) :
    (relsApply rels g).individuals = g.individuals := by
  induction rels generalizing g with
  | nil => rfl
  | cons r rest ih =>
      show (relsApply rest (relRecordApply g r)).individuals = _
      rw [ih, relRecordApply_individuals]

theorem relsApply_frontier (rels : List RelRecord) (g : Graph) :
    (relsApply rels g).frontier = g.frontier ∪ relsFrontier rels := by
  induction rels generalizing g with
  | nil => simp [relsApply, relsFrontier]
  | cons r rest ih =>
      show (relsApply rest (relRecordApply g r)).frontier = _
      rw [ih, relRecordApply_frontier, relsFrontier, Finset.union_assoc]

theorem relsApply_validator (rels : List RelRecord) (g : Graph) :
    (relsApply rels g).validator = g.validator ∪ relsValidator rels := by
  induction rels generalizing g with
  | nil => simp [relsApply, relsValidator]
  | cons r rest ih =>
      show (relsApply rest (relRecordApply g r)).validator = _
      rw [ih, relRecordApply_validator, relsValidator, Finset.union_assoc]

theorem relsApply_relationships (rels : List RelRecord) (g : Graph)
    (kp : String × String) :
    (relsApply rels g).relationships kp
      = if relsHaveKey rels kp ∧ g.relationships kp = none then some UNSPECIFIED_PARENT
        else g.relationships kp := by
  induction rels generalizing g with
  | nil => simp [relsApply, relsHaveKey]
  | cons r rest ih =>
      show (relsApply rest (relRecordApply g r)).relationships kp = _
      rw [ih, relRecordApply_relationships]
      by_cases h1 : recHasKey r kp = true <;>
        by_cases h2 : relsHaveKey rest kp = true <;>
        by_cases hn : g.relationships kp = none <;>
        simp [relsHaveKey, List.any_cons, h1, h2, hn] at *

/-! ## Fold-level effects of ingesting a persons list -/

/-- The accumulator view of the persons fold at one fixed key `k`. -/
def writeStep (hop : Int) (k : String) (acc : Option Individual) (p : PersonEntry) :
    Option Individual :=
  if k = p.pid then some ⟨p.pid, hop, p.payload⟩ else acc

theorem personsApply_individuals (hop : Int) (ps : List PersonEntry) (g : Graph)
    (k : String) :
    (personsApply hop ps g).individuals k
      = ps.foldl (writeStep hop k) (g.individuals k) := by
  induction ps generalizing g with
  | nil => rfl
  | cons p rest ih =>
      show (personsApply hop rest (ingestPerson hop g p)).individuals k = _
      rw [ih]
      rfl

theorem personsApply_frontier (hop : Int) (ps : List PersonEntry) (g : Graph) :
    (personsApply hop ps g).frontier = g.frontier := by
  induction ps generalizing g with
  | nil => rfl
  | cons p rest ih =>
      show (personsApply hop rest (ingestPerson hop g p)).frontier = _
      rw [ih]
      rfl

theorem personsApply_relationships (hop : Int) (ps : List PersonEntry) (g : Graph) :
    (personsApply hop ps g).relationships = g.relationships := by
  induction ps generalizing g with
  | nil => rfl
  | cons p rest ih =>
      show (personsApply hop rest (ingestPerson hop g p)).relationships = _
      rw [ih]
      rfl

theorem personsApply_validator (hop : Int) (ps : List PersonEntry) (g : Graph) :
    (personsApply hop ps g).validator = g.validator := by
  induction ps generalizing g with
  | nil => rfl
  | cons p rest ih =>
      show (personsApply hop rest (ingestPerson hop g p)).validator = _
      rw [ih]
      rfl

/-! ## Claim C9 (amended): stability of untouched individual records -/

theorem foldl_write_skip (hop : Int) (ps : List PersonEntry) (o : Option Individual)
    (k : String) (hk : k ∉ ps.map PersonEntry.pid) :
    ps.foldl (writeStep hop k) o = o := by
  induction ps generalizing o with
  | nil => rfl
  | cons p rest ih =>
      simp only [List.map_cons, List.mem_cons] at hk
      push_neg at hk
      simp only [List.foldl_cons, writeStep, if_neg hk.1]
      exact ih _ hk.2

theorem foldl_write_isSome (hop : Int) (ps : List PersonEntry) (o : Option Individual)
    (k : String) (ho : o.isSome = true) :
    (ps.foldl (writeStep hop k) o).isSome = true := by
  induction ps generalizing o with
  | nil => exact ho
  | cons p rest ih =>
      simp only [List.foldl_cons]
      apply ih
      by_cases h : k = p.pid
      · simp [writeStep, h]
      · simpa [writeStep, h] using ho

/-- C9 amended: an id's record is never deleted by ingestion, and it is
left unchanged by every ingestion whose response does not list that id
among its person entries; only a response listing the id again replaces
its record (with a fresh hop/payload, per the counterexample). -/
theorem process_persons_result_individuals_stable
    (d : Option ResponseDoc) (g g2 : Graph) (hop : Int) (pid : String)
    (h : process_persons_result d g hop = some g2) :
    (pid ∉ (personsOf d).map PersonEntry.pid →
        g2.individuals pid = g.individuals pid) ∧
      ((g.individuals pid).isSome = true → (g2.individuals pid).isSome = true) := by
  rw [process_persons_result_eq] at h
  by_cases hok : docOK d = true
  · rw [if_pos hok, Option.some.injEq] at h
    subst h
    have hind : (applyDoc d hop g).individuals pid
        = (personsOf d).foldl (writeStep hop pid) (g.individuals pid) := by
      unfold applyDoc
      rw [relsApply_individuals, personsApply_individuals]
    constructor
    · intro hmem
      rw [hind]
      exact foldl_write_skip hop _ _ pid hmem
    · intro hsome
      rw [hind]
      exact foldl_write_isSome hop _ _ pid hsome
  · rw [if_neg hok] at h
    cases h

/-- Witness for the amended C9: a graph already holding `A`, ingesting a
response about `B` only. -/
theorem process_persons_result_individuals_stable_witness :
    ∃ g2,
      process_persons_result (some ⟨some [⟨"B", "x"⟩], none⟩) graphWithA 0 = some g2 ∧
        (("A" : String) ∉ (personsOf (some ⟨some [⟨"B", "x"⟩], none⟩)).map
            PersonEntry.pid →
          g2.individuals "A" = graphWithA.individuals "A") ∧
        ((graphWithA.individuals "A").isSome = true →
          (g2.individuals "A").isSome = true) := by
  refine ⟨_, rfl, ?_⟩
  exact process_persons_result_individuals_stable
    (some ⟨some [⟨"B", "x"⟩], none⟩) graphWithA _ 0 "A" rfl

/-! ## Claim C7: two persons, one parent1-only relationship -/

/-- C7: ingesting a response with two (distinct, previously unknown)
person entries and one relationship entry carrying a child and parent1
but no parent2 creates two individuals tagged with the current hop
depth, adds the child id and the one parent id to the frontier, creates
the pending edge (child, parent) with the unspecified type, and touches
no other individual record. -/
theorem process_persons_result_two_persons_one_parent
    (p1 p2 : PersonEntry) (c q rid : String) (g : Graph) (hop : Int)
    (hpid : p1.pid ≠ p2.pid)
    (h1 : g.individuals p1.pid = none) (h2 : g.individuals p2.pid = none)
    (hrel : g.relationships (c, q) = none) :
    ∃ g2,
      process_persons_result
          (some ⟨some [p1, p2], some [⟨rid, some c, some q, none, none, none⟩]⟩)
          g hop
        = some g2 ∧
        g2.individuals p1.pid = some ⟨p1.pid, hop, p1.payload⟩ ∧
        g2.individuals p2.pid = some ⟨p2.pid, hop, p2.payload⟩ ∧
        c ∈ g2.frontier ∧ q ∈ g2.frontier ∧
        g2.relationships (c, q) = some UNSPECIFIED_PARENT ∧
        ∀ x, x ≠ p1.pid → x ≠ p2.pid → g2.individuals x = g.individuals x := by
  refine ⟨applyDoc
      (some ⟨some [p1, p2], some [⟨rid, some c, some q, none, none, none⟩]⟩) hop g,
    ?_, ?_, ?_, ?_, ?_, ?_, ?_⟩
  · rw [process_persons_result_eq]
    rfl
  · unfold applyDoc
    rw [relsApply_individuals, personsApply_individuals]
    show List.foldl _ _ [p1, p2] = _
    simp only [List.foldl_cons, List.foldl_nil, writeStep]
    rw [if_neg hpid]
    simp
  · unfold applyDoc
    rw [relsApply_individuals, personsApply_individuals]
    show List.foldl _ _ [p1, p2] = _
    simp only [List.foldl_cons, List.foldl_nil, writeStep]
    simp
  · unfold applyDoc
    rw [relsApply_frontier, personsApply_frontier]
    simp [relsOf, relsFrontier, recFrontier, slotFinset]
  · unfold applyDoc
    rw [relsApply_frontier, personsApply_frontier]
    simp [relsOf, relsFrontier, recFrontier, slotFinset]
  · unfold applyDoc
    rw [relsApply_relationships, personsApply_relationships]
    simp [relsOf, relsHaveKey, recHasKey, slotKey, hrel]
  · intro x hx1 hx2
    unfold applyDoc
    rw [relsApply_individuals, personsApply_individuals]
    show List.foldl _ _ [p1, p2] = _
    simp only [List.foldl_cons, List.foldl_nil, writeStep]
    rw [if_neg hx2, if_neg hx1]

/-- Witness for C7 at two concrete persons and one concrete
parent1-only relationship, on the empty graph. -/
theorem process_persons_result_two_persons_one_parent_witness :
    (("P1" : String) ≠ "P2" ∧ emptyGraph.individuals "P1" = none ∧
        emptyGraph.individuals "P2" = none ∧
        emptyGraph.relationships ("C", "Q") = none) ∧
      ∃ g2,
        process_persons_result
            (some ⟨some [⟨"P1", "d1"⟩, ⟨"P2", "d2"⟩],
              some [⟨"R", some "C", some "Q", none, none, none⟩]⟩)
            emptyGraph 7
          = some g2 ∧
          g2.individuals "P1" = some ⟨"P1", 7, "d1"⟩ ∧
          g2.individuals "P2" = some ⟨"P2", 7, "d2"⟩ ∧
          "C" ∈ g2.frontier ∧ "Q" ∈ g2.frontier ∧
          g2.relationships ("C", "Q") = some UNSPECIFIED_PARENT ∧
          ∀ x, x ≠ "P1" → x ≠ "P2" → g2.individuals x = emptyGraph.individuals x :=
  ⟨⟨by decide, rfl, rfl, rfl⟩,
    process_persons_result_two_persons_one_parent ⟨"P1", "d1"⟩ ⟨"P2", "d2"⟩
      "C" "Q" "R" emptyGraph 7 (by decide) rfl rfl rfl⟩

/-! ## Claim C4: commutativity of ingestion -/

theorem foldl_write_absorb (hop : Int) (k : String) (ps : List PersonEntry)
    (o : Option Individual) :
    ps.foldl (writeStep hop k) o
      = match ps.foldl (writeStep hop k) none with
        | some v => some v
        | none => o := by
  induction ps generalizing o with
  | nil => rfl
  | cons p rest ih =>
      simp only [List.foldl_cons]
      rw [ih (writeStep hop k o p), ih (writeStep hop k none p)]
      cases hres : rest.foldl (writeStep hop k) none with
      | some v => rfl
      | none =>
          simp only [writeStep]
          by_cases h : k = p.pid <;> simp [h]

theorem foldl_write_some_mem (hop : Int) (ps : List PersonEntry) (k : String)
    (v : Individual) (o : Option Individual)
    (h : ps.foldl (writeStep hop k) o = some v) :
    (∃ e ∈ ps, k = e.pid ∧ v = ⟨e.pid, hop, e.payload⟩) ∨ o = some v := by
  induction ps generalizing o with
  | nil => exact Or.inr h
  | cons p rest ih =>
      simp only [List.foldl_cons] at h
      rcases ih _ h with he | hstep
      · rcases he with ⟨e, hmem, hk, hv⟩
        exact Or.inl ⟨e, List.mem_cons_of_mem p hmem, hk, hv⟩
      · unfold writeStep at hstep
        by_cases hkp : k = p.pid
        · rw [if_pos hkp] at hstep
          exact Or.inl ⟨p, List.mem_cons_self p rest, hkp, (Option.some.inj hstep).symm⟩
        · rw [if_neg hkp] at hstep
          exact Or.inr hstep

/-- The two persons folds of two responses commute at every key when
entries shared between the responses agree. -/
theorem foldl_write_comm (hop : Int) (k : String) (ps1 ps2 : List PersonEntry)
    (o : Option Individual)
    (hshared : ∀ e1 ∈ ps1, ∀ e2 ∈ ps2, e1.pid = e2.pid → e1 = e2) :
    ps2.foldl (writeStep hop k) (ps1.foldl (writeStep hop k) o)
      = ps1.foldl (writeStep hop k) (ps2.foldl (writeStep hop k) o) := by
  rw [foldl_write_absorb hop k ps2 (ps1.foldl (writeStep hop k) o),
    foldl_write_absorb hop k ps1 o,
    foldl_write_absorb hop k ps1 (ps2.foldl (writeStep hop k) o),
    foldl_write_absorb hop k ps2 o]
  cases hL2 : ps2.foldl (writeStep hop k) none with
  | none =>
      cases hL1 : ps1.foldl (writeStep hop k) none with
      | none => rfl
      | some v1 => rfl
  | some v2 =>
      cases hL1 : ps1.foldl (writeStep hop k) none with
      | none => rfl
      | some v1 =>
          rcases foldl_write_some_mem hop ps1 k v1 none hL1 with h1 | h1
          · rcases foldl_write_some_mem hop ps2 k v2 none hL2 with h2 | h2
            · rcases h1 with ⟨e1, hm1, hk1, hv1⟩
              rcases h2 with ⟨e2, hm2, hk2, hv2⟩
              have he : e1 = e2 := hshared e1 hm1 e2 hm2 (by rw [← hk1, ← hk2])
              subst he
              rw [hv1, hv2]
            · cases h2
          · cases h1

theorem applyDoc_individuals (d : Option ResponseDoc) (hop : Int) (g : Graph)
    (k : String) :
    (applyDoc d hop g).individuals k
      = (personsOf d).foldl (writeStep hop k) (g.individuals k) := by
  unfold applyDoc
  rw [relsApply_individuals, personsApply_individuals]

theorem applyDoc_frontier (d : Option ResponseDoc) (hop : Int) (g : Graph) :
    (applyDoc d hop g).frontier = g.frontier ∪ relsFrontier (relsOf d) := by
  unfold applyDoc
  rw [relsApply_frontier, personsApply_frontier]

theorem applyDoc_validator (d : Option ResponseDoc) (hop : Int) (g : Graph) :
    (applyDoc d hop g).validator = g.validator ∪ relsValidator (relsOf d) := by
  unfold applyDoc
  rw [relsApply_validator, personsApply_validator]

theorem applyDoc_relationships (d : Option ResponseDoc) (hop : Int) (g : Graph)
    (kp : String × String) :
    (applyDoc d hop g).relationships kp
      = if relsHaveKey (relsOf d) kp ∧ g.relationships kp = none
          then some UNSPECIFIED_PARENT
        else g.relationships kp := by
  unfold applyDoc
  rw [relsApply_relationships]
  rw [personsApply_relationships]

theorem applyDoc_comm (d1 d2 : Option ResponseDoc) (hop : Int) (g : Graph)
    (hshared : ∀ e1 ∈ personsOf d1, ∀ e2 ∈ personsOf d2, e1.pid = e2.pid → e1 = e2) :
    applyDoc d2 hop (applyDoc d1 hop g) = applyDoc d1 hop (applyDoc d2 hop g) := by
  apply Graph.ext
  · funext k
    rw [applyDoc_individuals d2 hop (applyDoc d1 hop g) k, applyDoc_individuals d1 hop g k,
      applyDoc_individuals d1 hop (applyDoc d2 hop g) k, applyDoc_individuals d2 hop g k]
    exact foldl_write_comm hop k (personsOf d1) (personsOf d2) (g.individuals k) hshared
  · rw [applyDoc_frontier, applyDoc_frontier, applyDoc_frontier, applyDoc_frontier]
    exact Finset.union_right_comm _ _ _
  · funext kp
    simp only [applyDoc_relationships]
    by_cases h1 : relsHaveKey (relsOf d1) kp = true <;>
      by_cases h2 : relsHaveKey (relsOf d2) kp = true <;>
      by_cases hn : g.relationships kp = none <;>
      simp [h1, h2, hn]
  · rw [applyDoc_validator, applyDoc_validator, applyDoc_validator, applyDoc_validator]
    exact Finset.union_right_comm _ _ _

/-- C4 counterexample: two persons-list responses carrying the *same*
person id with different payloads do not commute — the last ingestion's
payload wins, so the two orders leave different individual records. -/
theorem process_persons_result_commute_counterexample :
    ((process_persons_result (some ⟨some [⟨"A", "x"⟩], none⟩) emptyGraph 0).bind
          (fun g1 => process_persons_result (some ⟨some [⟨"A", "y"⟩], none⟩) g1 0)).map
        (fun g => g.individuals "A")
      = some (some ⟨"A", 0, "y"⟩) ∧
      ((process_persons_result (some ⟨some [⟨"A", "y"⟩], none⟩) emptyGraph 0).bind
          (fun g1 => process_persons_result (some ⟨some [⟨"A", "x"⟩], none⟩) g1 0)).map
        (fun g => g.individuals "A")
      = some (some ⟨"A", 0, "x"⟩) ∧
      (process_persons_result (some ⟨some [⟨"A", "x"⟩], none⟩) emptyGraph 0).bind
          (fun g1 => process_persons_result (some ⟨some [⟨"A", "y"⟩], none⟩) g1 0)
        ≠ (process_persons_result (some ⟨some [⟨"A", "y"⟩], none⟩) emptyGraph 0).bind
          (fun g1 => process_persons_result (some ⟨some [⟨"A", "x"⟩], none⟩) g1 0) := by
  have c1 : ((process_persons_result (some ⟨some [⟨"A", "x"⟩], none⟩) emptyGraph 0).bind
        (fun g1 => process_persons_result (some ⟨some [⟨"A", "y"⟩], none⟩) g1 0)).map
      (fun g => g.individuals "A") = some (some ⟨"A", 0, "y"⟩) := rfl
  have c2 : ((process_persons_result (some ⟨some [⟨"A", "y"⟩], none⟩) emptyGraph 0).bind
        (fun g1 => process_persons_result (some ⟨some [⟨"A", "x"⟩], none⟩) g1 0)).map
      (fun g => g.individuals "A") = some (some ⟨"A", 0, "x"⟩) := rfl
  refine ⟨c1, c2, fun hcontra => ?_⟩
  have h1 := congrArg (Option.map (fun g => g.individuals "A")) hcontra
  rw [c1, c2] at h1
  exact absurd h1 (by decide)

/-- C4 amended: ingesting two persons-list responses in either order
yields the same final graph state, provided any person id occurring in
both responses carries identical entries in both (as is the case for
batches of one group, which partition disjoint id sets against one
server state). -/
theorem process_persons_result_commutes
    (d1 d2 : Option ResponseDoc) (g : Graph) (hop : Int)
    (hshared : ∀ e1 ∈ personsOf d1, ∀ e2 ∈ personsOf d2, e1.pid = e2.pid → e1 = e2) :
    (process_persons_result d1 g hop).bind
        (fun g1 => process_persons_result d2 g1 hop)
      = (process_persons_result d2 g hop).bind
        (fun g1 => process_persons_result d1 g1 hop) := by
  by_cases h1 : docOK d1 = true
  · by_cases h2 : docOK d2 = true
    · simp only [process_persons_result_eq, if_pos h1, if_pos h2, Option.some_bind]
      exact congrArg some (applyDoc_comm d1 d2 hop g hshared)
    · simp [process_persons_result_eq, h1, h2]
  · by_cases h2 : docOK d2 = true
    · simp [process_persons_result_eq, h1, h2]
    · simp [process_persons_result_eq, h1, h2]

/-- Witness for the amended C4: two responses about disjoint person
ids. -/
theorem process_persons_result_commutes_witness :
    (∀ e1 ∈ personsOf (some ⟨some [⟨"A", "x"⟩], none⟩),
        ∀ e2 ∈ personsOf (some ⟨some [⟨"B", "y"⟩], none⟩), e1.pid = e2.pid → e1 = e2) ∧
      (process_persons_result (some ⟨some [⟨"A", "x"⟩], none⟩) emptyGraph 0).bind
          (fun g1 => process_persons_result (some ⟨some [⟨"B", "y"⟩], none⟩) g1 0)
        = (process_persons_result (some ⟨some [⟨"B", "y"⟩], none⟩) emptyGraph 0).bind
          (fun g1 => process_persons_result (some ⟨some [⟨"A", "x"⟩], none⟩) g1 0) :=
  ⟨by decide,
    process_persons_result_commutes (some ⟨some [⟨"A", "x"⟩], none⟩)
      (some ⟨some [⟨"B", "y"⟩], none⟩) emptyGraph 0 (by decide)⟩

/-! ## The per-hop algorithm (`process_hop`)

The transport is abstracted by a fetch oracle from URL to parsed
document (`None` for an empty body); the cooperative scheduler ingests
one batch's result at a time, here in batch order.  Delays only sleep
and do not touch the graph, so they are dropped. -/

/-- `",".join(ids)` over one group element: a batch joins its ids; over
a bare string Python would join its characters (unreachable on the
persons path, whose batch size is 200). -/
def joinCell : Cell → String
  | .batch l => String.intercalate "," l
  | .single s => String.intercalate "," (s.toList.map (fun ch => String.mk [ch]))

/-- The URL of one persons request. -/
def personsURL (cell : Cell) : String := GET_PERSONS ++ joinCell cell

/-- The URL of one relationship-resolution request; the resolve path
always carries bare ids (batch size forced to 1). -/
def relURL (cell : Cell) : String :=
  RESOLVE_RELATIONSHIP
    ++ (match cell with
        | .single s => s
        | .batch l => String.intercalate "," l)
    ++ ".json"

/-- `add_individuals_to_graph(hop_count, graph, ids, loop, delay)`:
partition against the already-known individuals, then fetch and ingest
every batch of every group. -/
def add_individuals_to_graph (hop : Int) (g : Graph) (ids : List (Option String))
    (fetch : String → Option ResponseDoc) : Option Graph :=
  (partition_requests ids (fun i => (g.individuals i).isSome) MAX_PERSONS
      MAX_CONCURRENT_REQUESTS).foldlM
    (fun acc grp =>
      grp.foldlM
        (fun acc2 cell => process_persons_result (fetch (personsURL cell)) acc2 hop)
        acc)
    g

/-- `resolve_relationships(graph, relationships, loop, delay)`: batch
size forced to 1, width `MAX_CONCURRENT_REQUESTS * 5`, no exclusion;
every result goes through the (total) `process_relationship_result`. -/
def resolve_relationships (g : Graph) (rels : List (Option String))
    (fetch : String → Option ResponseDoc) : Graph :=
  (partition_requests rels (fun _ => false) 1 (MAX_CONCURRENT_REQUESTS * 5)).foldl
    (fun acc grp =>
      grp.foldl
        (fun acc2 cell => process_relationship_result (fetch (relURL cell)) acc2)
        acc)
    g

/-- `process_hop(hop_count, graph, loop, strict_resolve)`: snapshot and
clear the frontier, fetch-and-ingest persons, subtract the known
individuals from the frontier, then resolve the relationships chosen by
the validator.  The Python set iteration order of the snapshot is
abstracted by `enumFrontier`, and the excluded validator collaborator's
selection rule (`get_relationships_to_validate`) by `toValidate`. -/
def process_hop (hop : Int) (g : Graph) (enumFrontier : Finset String → List String)
    (personsFetch relFetch : String → Option ResponseDoc)
    (toValidate : Graph → Bool → List String) (strict : Bool) : Option Graph :=
  match add_individuals_to_graph hop { g with frontier := ∅ }
      ((enumFrontier g.frontier).map some) personsFetch with
  | none => none
  | some g1 =>
      some (resolve_relationships
        { g1 with frontier := g1.frontier.filter (fun i => g1.individuals i = none) }
        ((toValidate
            { g1 with frontier := g1.frontier.filter (fun i => g1.individuals i = none) }
            strict).map some)
        relFetch)

/-! ## Resolution never touches individuals or the frontier -/

theorem update_relationship_info_individuals (c p : Option String)
    (f : Option (List Fact)) (g : Graph) :
    (update_relationship_info c p f g).individuals = g.individuals := by
  unfold update_relationship_info
  split <;> rfl

theorem update_relationship_info_frontier (c p : Option String)
    (f : Option (List Fact)) (g : Graph) :
    (update_relationship_info c p f g).frontier = g.frontier := by
  unfold update_relationship_info
  split <;> rfl

theorem foldl_graph_individuals {β : Type} (f : Graph → β → Graph)
    (hf : ∀ g b, (f g b).individuals = g.individuals) (l : List β) (g : Graph) :
    (l.foldl f g).individuals = g.individuals := by
  induction l generalizing g with
  | nil => rfl
  | cons b rest ih => rw [List.foldl_cons, ih, hf]

theorem foldl_graph_frontier {β : Type} (f : Graph → β → Graph)
    (hf : ∀ g b, (f g b).frontier = g.frontier) (l : List β) (g : Graph) :
    (l.foldl f g).frontier = g.frontier := by
  induction l generalizing g with
  | nil => rfl
  | cons b rest ih => rw [List.foldl_cons, ih, hf]

theorem process_relationship_result_individuals (d : Option ResponseDoc) (g : Graph) :
    (process_relationship_result d g).individuals = g.individuals := by
  cases d with
  | none => rfl
  | some dd =>
      cases hc : dd.childAndParentsRelationships with
      | none => simp [process_relationship_result, hc]
      | some rels =>
          simp only [process_relationship_result, hc]
          exact foldl_graph_individuals
            (fun g rel =>
              update_relationship_info rel.child rel.parent2 rel.parent2Facts
                (update_relationship_info rel.child rel.parent1 rel.parent1Facts g))
            (fun g2 rel => by
              rw [update_relationship_info_individuals,
                update_relationship_info_individuals])
            rels g

theorem process_relationship_result_frontier (d : Option ResponseDoc) (g : Graph) :
    (process_relationship_result d g).frontier = g.frontier := by
  cases d with
  | none => rfl
  | some dd =>
      cases hc : dd.childAndParentsRelationships with
      | none => simp [process_relationship_result, hc]
      | some rels =>
          simp only [process_relationship_result, hc]
          exact foldl_graph_frontier
            (fun g rel =>
              update_relationship_info rel.child rel.parent2 rel.parent2Facts
                (update_relationship_info rel.child rel.parent1 rel.parent1Facts g))
            (fun g2 rel => by
              rw [update_relationship_info_frontier, update_relationship_info_frontier])
            rels g

theorem resolve_relationships_individuals (g : Graph) (rels : List (Option String))
    (fetch : String → Option ResponseDoc) :
    (resolve_relationships g rels fetch).individuals = g.individuals := by
  unfold resolve_relationships
  exact foldl_graph_individuals _
    (fun g2 grp =>
      foldl_graph_individuals _
        (fun g3 cell => process_relationship_result_individuals _ _) grp g2)
    _ g

theorem resolve_relationships_frontier (g : Graph) (rels : List (Option String))
    (fetch : String → Option ResponseDoc) :
    (resolve_relationships g rels fetch).frontier = g.frontier := by
  unfold resolve_relationships
  exact foldl_graph_frontier _
    (fun g2 grp =>
      foldl_graph_frontier _
        (fun g3 cell => process_relationship_result_frontier _ _) grp g2)
    _ g

/-! ## Claim C3: frontier and known individuals are disjoint after a hop -/

/-- C3: whenever `process_hop` returns a graph, no id of its frontier is
a known individual: the frontier and the individuals-map keys are
disjoint. -/
theorem process_hop_frontier_disjoint
    (hop : Int) (g : Graph) (enumFrontier : Finset String → List String)
    (personsFetch relFetch : String → Option ResponseDoc)
    (toValidate : Graph → Bool → List String) (strict : Bool) (g2 : Graph)
    (h : process_hop hop g enumFrontier personsFetch relFetch toValidate strict
      = some g2) :
    ∀ x ∈ g2.frontier, g2.individuals x = none := by
  unfold process_hop at h
  cases ha : add_individuals_to_graph hop { g with frontier := ∅ }
      ((enumFrontier g.frontier).map some) personsFetch with
  | none =>
      rw [ha] at h
      cases h
  | some g1 =>
      rw [ha, Option.some.injEq] at h
      subst h
      intro x hx
      rw [resolve_relationships_individuals]
      rw [resolve_relationships_frontier] at hx
      exact (Finset.mem_filter.mp hx).2

/-- Witness for C3: a trivial hop from the empty graph. -/
theorem process_hop_frontier_disjoint_witness :
    ∃ g2,
      process_hop 0 emptyGraph (fun _ => []) (fun _ => none) (fun _ => none)
          (fun _ _ => []) false
        = some g2 ∧
      ∀ x ∈ g2.frontier, g2.individuals x = none := by
  have heq : process_hop 0 emptyGraph (fun _ => []) (fun _ => none) (fun _ => none)
      (fun _ _ => []) false
      = some { emptyGraph with
          frontier := Finset.filter (fun i => emptyGraph.individuals i = none) ∅ } := by
    unfold process_hop add_individuals_to_graph resolve_relationships partition_requests
    simp [filterIds, sliceChunks_nil, split_seq_nil, MAX_PERSONS,
      MAX_CONCURRENT_REQUESTS]
  exact ⟨_, heq,
    process_hop_frontier_disjoint 0 emptyGraph (fun _ => []) (fun _ => none)
      (fun _ => none) (fun _ _ => []) false _ heq⟩

end FsCrawler
